import Mathlib

/-!
Shallow embedding of a hazard-pointer safe-memory-reclamation core
(`src/hazard.rs`, `src/retire.rs`) and proofs about it.

Machine pointers are modelled as natural numbers, with `0` standing for the
null pointer.  A `HazardSlot` is the record `{ active, hazard }` from
`hazard.rs` (the `next` field becomes the list structure of the chain); a
`HazardBag` is the slot chain in head-to-tail order.  A `Shield` is identified
by the index of its leased slot in the chain.  Atomic operations are modelled
as taking effect atomically in a sequential interleaving; a compare-and-swap
on an uncontended location succeeds.  The type-erased destructor stored in a
retired entry is modelled as an opaque tag, and "the destructor is invoked on
the pointer" is recorded by the entry appearing in the output `freed` list of
the operation.
-/

set_option autoImplicit false

namespace HazardPtr

/-- Machine representation of a type-erased pointer; `0` is null. -/
abbrev Ptr := Nat

/-- Tag identifying a stored destructor function (`free::<T>` in `retire.rs`). -/
abbrev Del := Nat

/-- One retired entry: the pointer together with its stored destructor,
mirroring `type Retired = (*mut (), unsafe fn(*mut ()))`. -/
abbrev Retired := Ptr × Del

/-- A hazard slot from `hazard.rs`: the liveness flag `active` and the
published pointer `hazard`.  The write-once `next` field is represented by
the position of the slot in the chain list. -/
structure HazardSlot where
  active : Bool
  hazard : Ptr
  deriving Repr, DecidableEq

/-- Mirrors `HazardSlot::new()`: liveness true, protected value null. -/
def HazardSlot.new : HazardSlot :=
  { active := true, hazard := 0 }

instance : Inhabited HazardSlot := ⟨HazardSlot.new⟩

/-- The slot chain of a `HazardBag`, in head-to-tail order. -/
abbrev HazardBag := List HazardSlot

/-- The slot at chain position `i` (head = position 0). -/
def nthSlot (bag : HazardBag) (i : Nat) : HazardSlot :=
  bag.getD i HazardSlot.new

/-- Replace the slot at chain position `i` by the result of `f`; positions
past the end of the chain leave the chain unchanged. -/
def updateSlot : HazardBag → Nat → (HazardSlot → HazardSlot) → HazardBag
  | [], _, _ => []
  | s :: rest, 0, f => f s :: rest
  | s :: rest, i + 1, f => s :: updateSlot rest i f

/-- Mirrors `HazardBag::all_hazards`: walk the chain head to tail and collect
every non-null published pointer.  The Rust function accumulates into a
`HashSet`; here the traversal order is kept and set semantics is expressed
through list membership. -/
def all_hazards : HazardBag → List Ptr
  | [] => []
  | s :: rest =>
    if s.hazard = 0 then all_hazards rest else s.hazard :: all_hazards rest

/-- Mirrors `HazardBag::try_acquire_inactive`: scan from the head for the
first slot whose liveness flag is false and flip it to true.  Returns the
updated chain and the position of the acquired slot, or `none` when every
slot is active. -/
def try_acquire_inactive : HazardBag → Option (HazardBag × Nat)
  | [] => none
  | s :: rest =>
    if s.active then
      (try_acquire_inactive rest).map (fun r => (s :: r.1, r.2 + 1))
    else
      some ({ s with active := true } :: rest, 0)

/-- Mirrors `HazardBag::acquire_slot`: recycle an inactive slot if one
exists, otherwise push a fresh slot (`HazardSlot::new()`) at the head of the
chain.  Returns the updated chain and the acquired slot's position. -/
def acquire_slot (bag : HazardBag) : HazardBag × Nat :=
  match try_acquire_inactive bag with
  | some r => r
  | none => (HazardSlot.new :: bag, 0)

/-- Position of the first slot in the chain whose liveness flag is false. -/
def firstInactive : HazardBag → Option Nat
  | [] => none
  | s :: rest => if s.active then (firstInactive rest).map (· + 1) else some 0

/-- Number of slots in the chain whose liveness flag is false. -/
def inactiveCount (bag : HazardBag) : Nat :=
  (bag.filter fun s => !s.active).length

/-- Lease `n` shields in a row (each keeping its slot), as in building a
vector of simultaneously live shields. -/
def acquireN : HazardBag → Nat → HazardBag
  | bag, 0 => bag
  | bag, n + 1 => acquireN (acquire_slot bag).1 n

/-- The registry invariant of claim C10: a slot whose liveness flag is false
holds a null protected value. -/
def Inv (bag : HazardBag) : Prop :=
  ∀ s ∈ bag, s.active = false → s.hazard = 0

instance (bag : HazardBag) : Decidable (Inv bag) :=
  inferInstanceAs (Decidable (∀ s ∈ bag, s.active = false → s.hazard = 0))

namespace Shield

/-- Mirrors `Shield::set`: unconditional store into the leased slot's
hazard field. -/
def set (bag : HazardBag) (i : Nat) (p : Ptr) : HazardBag :=
  updateSlot bag i (fun s => { s with hazard := p })

/-- Mirrors `Shield::clear`: store null into the leased slot. -/
def clear (bag : HazardBag) (i : Nat) : HazardBag :=
  set bag i 0

/-- Mirrors `Shield::validate`: re-read the source (`srcNow` is the value
the atomic load observes) and compare with `pointer`; `none` is `Ok(())`,
`some v` is `Err(v)` carrying the newly observed value. -/
def validate (pointer srcNow : Ptr) : Option Ptr :=
  if srcNow = pointer then none else some srcNow

/-- Mirrors `Shield::try_protect`: `set` followed by `validate`, clearing
the slot on mismatch (`inspect_err(|_| self.clear())`).  Returns the updated
chain and the validation outcome. -/
def try_protect (bag : HazardBag) (i : Nat) (pointer srcNow : Ptr) :
    HazardBag × Option Ptr :=
  let bag' := set bag i pointer
  match validate pointer srcNow with
  | none => (bag', none)
  | some new => (clear bag' i, some new)

/-- The retry loop of `Shield::protect`, after the initial load.  `loads` is
the sequence of values successive atomic loads of the source observe (one per
`validate`); an empty list means the schedule ended before the loop finished,
modelling non-termination under perpetual interference. -/
def protectAux (bag : HazardBag) (i : Nat) (pointer : Ptr) :
    List Ptr → Option (Ptr × HazardBag)
  | [] => none
  | srcNow :: rest =>
    match try_protect bag i pointer srcNow with
    | (bag', none) => some (pointer, bag')
    | (bag', some new) => protectAux bag' i new rest

/-- Mirrors `Shield::protect`: the first element of `loads` is the initial
`src.load`, the rest feed the `try_protect` retry loop. -/
def protect (bag : HazardBag) (i : Nat) : List Ptr → Option (Ptr × HazardBag)
  | [] => none
  | v :: loads => protectAux bag i v loads

/-- Mirrors `impl Drop for Shield`: store null into the hazard field, then
release the liveness flag. -/
def dropSlot (bag : HazardBag) (i : Nat) : HazardBag :=
  updateSlot bag i (fun s => { s with hazard := 0, active := false })

end Shield

/-- The thread-local retired-pointer list from `retire.rs`: the buffer
`inner` of (pointer, destructor) pairs.  The `hazards` back-reference is
passed explicitly to the operations as the hazard snapshot or chain they
consult. -/
structure RetiredSet where
  inner : List Retired
  deriving Repr, DecidableEq

namespace RetiredSet

/-- Mirrors `RetiredSet::THRESHOLD`. -/
def THRESHOLD : Nat := 64

/-- Mirrors `RetiredSet::new`: an empty buffer. -/
def new : RetiredSet := ⟨[]⟩

/-- The single pass inside `collect`: `Vec::retain` keeps the entries whose
pointer is in the hazard snapshot `hz` and pushes every other entry, in
traversal order, onto the `can_free` list.  Returns (retained, can_free). -/
def retainSplit (hz : List Ptr) : List Retired → List Retired × List Retired
  | [] => ([], [])
  | e :: rest =>
    let r := retainSplit hz rest
    if e.1 ∈ hz then (e :: r.1, r.2) else (r.1, e :: r.2)

/-- Mirrors `RetiredSet::collect` against the chain `bag`: take the snapshot
`all_hazards bag`, retain the still-hazarded entries and run the stored
destructor of every other entry.  Returns the updated buffer and, as the
record of the destructor invocations, the freed entries in invocation
order. -/
def collect (bag : HazardBag) (rs : RetiredSet) : RetiredSet × List Retired :=
  let r := retainSplit (all_hazards bag) rs.inner
  (⟨r.1⟩, r.2)

/-- Mirrors `RetiredSet::retire`: push the (pointer, destructor) pair, and
when the buffer length reaches `THRESHOLD`, run `collect` before
returning. -/
def retire (bag : HazardBag) (rs : RetiredSet) (e : Retired) :
    RetiredSet × List Retired :=
  let rs' : RetiredSet := ⟨rs.inner ++ [e]⟩
  if THRESHOLD ≤ rs'.inner.length then collect bag rs' else (rs', [])

/-- Retire a list of entries one after another, accumulating every
destructor invocation in order. -/
def retireAll (bag : HazardBag) (rs : RetiredSet) :
    List Retired → RetiredSet × List Retired
  | [] => (rs, [])
  | e :: rest =>
    let r := retire bag rs e
    let r' := retireAll bag r.1 rest
    (r'.1, r.2 ++ r'.2)

/-- Mirrors `impl Drop for RetiredSet`: `while !inner.is_empty() { collect() }`.
Each loop iteration consults the chain state `bags.head` current at that
iteration; the list `bags` of chain states is the schedule of snapshots the
successive `collect` calls observe.  `none` models the loop still spinning
when the schedule runs out. -/
def dropDrain : List HazardBag → RetiredSet → Option (List Retired)
  | [], rs => if rs.inner = [] then some [] else none
  | bag :: rest, rs =>
    if rs.inner = [] then some []
    else
      Option.map (fun freed => (collect bag rs).2 ++ freed)
        (dropDrain rest (collect bag rs).1)

end RetiredSet

/-! Basic lemmas about the chain-update primitives. -/

theorem updateSlot_length (bag : HazardBag) (i : Nat) (f : HazardSlot → HazardSlot) :
    (updateSlot bag i f).length = bag.length := by
  induction bag generalizing i with
  | nil => rfl
  | cons s rest ih =>
    cases i with
    | zero => rfl
    | succ i => simp [updateSlot, ih]

theorem nthSlot_updateSlot_self (bag : HazardBag) (i : Nat)
    (f : HazardSlot → HazardSlot) (h : i < bag.length) :
    nthSlot (updateSlot bag i f) i = f (nthSlot bag i) := by
  induction bag generalizing i with
  | nil => simp at h
  | cons s rest ih =>
    cases i with
    | zero => rfl
    | succ i =>
      simp only [List.length_cons, Nat.succ_lt_succ_iff] at h
      simpa [updateSlot, nthSlot] using ih i h

theorem nthSlot_updateSlot_other (bag : HazardBag) (i j : Nat)
    (f : HazardSlot → HazardSlot) (h : j ≠ i) :
    nthSlot (updateSlot bag i f) j = nthSlot bag j := by
  induction bag generalizing i j with
  | nil => rfl
  | cons s rest ih =>
    cases i with
    | zero =>
      cases j with
      | zero => exact absurd rfl h
      | succ j => rfl
    | succ i =>
      cases j with
      | zero => rfl
      | succ j =>
        have : j ≠ i := fun e => h (by simp [e])
        simpa [updateSlot, nthSlot] using ih i j this

theorem mem_updateSlot (bag : HazardBag) (i : Nat) (f : HazardSlot → HazardSlot)
    (s' : HazardSlot) (h : s' ∈ updateSlot bag i f) :
    s' ∈ bag ∨ (i < bag.length ∧ s' = f (nthSlot bag i)) := by
  induction bag generalizing i with
  | nil => simp [updateSlot] at h
  | cons s rest ih =>
    cases i with
    | zero =>
      rcases List.mem_cons.mp h with h' | h'
      · exact Or.inr ⟨Nat.succ_pos _, h'⟩
      · exact Or.inl (List.mem_cons.mpr (Or.inr h'))
    | succ i =>
      rcases List.mem_cons.mp h with h' | h'
      · exact Or.inl (List.mem_cons.mpr (Or.inl h'))
      · rcases ih i h' with h'' | ⟨hlt, he⟩
        · exact Or.inl (List.mem_cons.mpr (Or.inr h''))
        · exact Or.inr ⟨Nat.succ_lt_succ hlt, he⟩

/-- Membership characterisation of `all_hazards`. -/
theorem mem_all_hazards (bag : HazardBag) (p : Ptr) :
    p ∈ all_hazards bag ↔ p ≠ 0 ∧ ∃ s ∈ bag, s.hazard = p := by
  induction bag with
  | nil => simp [all_hazards]
  | cons s rest ih =>
    by_cases h0 : s.hazard = 0
    · rw [all_hazards, if_pos h0, ih]
      constructor
      · rintro ⟨hp, t, ht, he⟩
        exact ⟨hp, t, List.mem_cons_of_mem _ ht, he⟩
      · rintro ⟨hp, t, ht, he⟩
        rcases List.mem_cons.mp ht with rfl | ht'
        · exact absurd (he.symm.trans h0) hp
        · exact ⟨hp, t, ht', he⟩
    · rw [all_hazards, if_neg h0]
      constructor
      · intro hmem
        rcases List.mem_cons.mp hmem with rfl | hmem'
        · exact ⟨h0, s, List.mem_cons_self s rest, rfl⟩
        · rcases ih.mp hmem' with ⟨hp, t, ht, he⟩
          exact ⟨hp, t, List.mem_cons_of_mem _ ht, he⟩
      · rintro ⟨hp, t, ht, he⟩
        rcases List.mem_cons.mp ht with rfl | ht'
        · exact List.mem_cons.mpr (Or.inl he.symm)
        · exact List.mem_cons_of_mem _ (ih.mpr ⟨hp, t, ht', he⟩)

/-- The single pass of `collect` computes a filter pair: retained entries are
exactly those whose pointer is in the snapshot, freed entries exactly the
others, both in buffer order. -/
theorem retainSplit_eq (hz : List Ptr) (l : List Retired) :
    RetiredSet.retainSplit hz l =
      (l.filter (fun e => decide (e.1 ∈ hz)),
       l.filter (fun e => decide (e.1 ∉ hz))) := by
  induction l with
  | nil => rfl
  | cons e rest ih =>
    by_cases he : e.1 ∈ hz <;>
      simp [RetiredSet.retainSplit, ih, he, List.filter_cons]

/-- Claim C6: `all_hazards` returns precisely the set of non-null protected
values held in the chain's slots: every returned value is non-null and is the
hazard field of some slot of the chain, and conversely every non-null hazard
field of a chain slot is returned. -/
theorem all_hazards_exact (bag : HazardBag) :
    (∀ p ∈ all_hazards bag, p ≠ 0 ∧ ∃ s ∈ bag, s.hazard = p) ∧
    (∀ s ∈ bag, s.hazard ≠ 0 → s.hazard ∈ all_hazards bag) := by
  constructor
  · intro p hp
    exact (mem_all_hazards bag p).mp hp
  · intro s hs h0
    exact (mem_all_hazards bag s.hazard).mpr ⟨h0, s, hs, rfl⟩

/-- Claim C6 witness: evaluation on a concrete two-slot chain. -/
theorem all_hazards_exact_witness :
    5 ∈ all_hazards [HazardSlot.mk true 5, HazardSlot.mk false 0] ∧
    5 ≠ 0 ∧
    ∃ s ∈ [HazardSlot.mk true 5, HazardSlot.mk false 0], s.hazard = 5 := by
  refine ⟨by decide, ?_⟩
  exact (all_hazards_exact [HazardSlot.mk true 5, HazardSlot.mk false 0]).1 5 (by decide)

/-- Claim C2: `collect` partitions the buffered entries by membership of
their pointer in the hazard snapshot — an entry stays in the buffer exactly
when its pointer is in `all_hazards`, the destructor-invocation record holds
each non-hazarded entry as often as the buffer did (so exactly once for an
entry retired once) and holds no hazarded entry, and the retained and freed
occurrence counts add up to the original buffer, so no other entry is
touched. -/
theorem collect_partition (bag : HazardBag) (rs : RetiredSet) (e : Retired) :
    (e ∈ (rs.collect bag).1.inner ↔ e ∈ rs.inner ∧ e.1 ∈ all_hazards bag) ∧
    ((rs.collect bag).2.count e =
      if e.1 ∈ all_hazards bag then 0 else rs.inner.count e) ∧
    ((rs.collect bag).1.inner.count e + (rs.collect bag).2.count e =
      rs.inner.count e) := by
  have hsplit := retainSplit_eq (all_hazards bag) rs.inner
  refine ⟨?_, ?_, ?_⟩
  · simp only [RetiredSet.collect, hsplit]
    simp [List.mem_filter]
  · simp only [RetiredSet.collect, hsplit]
    by_cases he : e.1 ∈ all_hazards bag
    · rw [if_pos he, List.count_eq_zero]
      intro hmem
      have := (List.mem_filter.mp hmem).2
      simp [he] at this
    · rw [if_neg he, List.count_filter]
      simp [he]
  · simp only [RetiredSet.collect, hsplit]
    by_cases he : e.1 ∈ all_hazards bag
    · have h1 :
          List.count e (rs.inner.filter fun x => decide (x.1 ∈ all_hazards bag)) =
            List.count e rs.inner :=
        List.count_filter (by simpa using he)
      have h2 :
          List.count e (rs.inner.filter fun x => decide (x.1 ∉ all_hazards bag)) = 0 := by
        rw [List.count_eq_zero]
        intro hmem
        have hx := (List.mem_filter.mp hmem).2
        simp [he] at hx
      rw [h1, h2, Nat.add_zero]
    · have h1 :
          List.count e (rs.inner.filter fun x => decide (x.1 ∈ all_hazards bag)) = 0 := by
        rw [List.count_eq_zero]
        intro hmem
        have hx := (List.mem_filter.mp hmem).2
        simp [he] at hx
      have h2 :
          List.count e (rs.inner.filter fun x => decide (x.1 ∉ all_hazards bag)) =
            List.count e rs.inner :=
        List.count_filter (by simpa using he)
      rw [h1, h2, Nat.zero_add]

/-- Claim C2 witness: concrete evaluation with pointer 1 hazarded and
pointer 2 free. -/
theorem collect_partition_witness :
    ((2, 0) ∈
        ((RetiredSet.mk [(1, 0), (2, 0)]).collect [HazardSlot.mk true 1]).1.inner ↔
      (2, 0) ∈ (RetiredSet.mk [(1, 0), (2, 0)]).inner ∧
        (2 : Nat) ∈ all_hazards [HazardSlot.mk true 1]) ∧
    (((RetiredSet.mk [(1, 0), (2, 0)]).collect [HazardSlot.mk true 1]).2.count
        (2, 0) =
      if (2 : Nat) ∈ all_hazards [HazardSlot.mk true 1] then 0
      else (RetiredSet.mk [(1, 0), (2, 0)]).inner.count (2, 0)) ∧
    (((RetiredSet.mk [(1, 0), (2, 0)]).collect [HazardSlot.mk true 1]).1.inner.count
          (2, 0) +
        ((RetiredSet.mk [(1, 0), (2, 0)]).collect [HazardSlot.mk true 1]).2.count
          (2, 0) =
      (RetiredSet.mk [(1, 0), (2, 0)]).inner.count (2, 0)) :=
  collect_partition [HazardSlot.mk true 1] (RetiredSet.mk [(1, 0), (2, 0)]) (2, 0)

theorem firstInactive_some (bag : HazardBag) (j : Nat)
    (h : firstInactive bag = some j) :
    j < bag.length ∧ (nthSlot bag j).active = false ∧
      ∀ k, k < j → (nthSlot bag k).active = true := by
  induction bag generalizing j with
  | nil => simp [firstInactive] at h
  | cons s rest ih =>
    by_cases ha : s.active
    · rw [firstInactive, if_pos ha] at h
      cases hr : firstInactive rest with
      | none => simp [hr] at h
      | some j' =>
        rw [hr] at h
        have hj : j' + 1 = j := by simpa using h
        subst hj
        obtain ⟨h1, h2, h3⟩ := ih j' hr
        refine ⟨Nat.succ_lt_succ h1, h2, ?_⟩
        intro k hk
        cases k with
        | zero => simpa [nthSlot] using ha
        | succ k => exact h3 k (Nat.lt_of_succ_lt_succ hk)
    · rw [firstInactive, if_neg ha] at h
      obtain rfl : 0 = j := Option.some.inj h
      refine ⟨Nat.succ_pos _, ?_, fun k hk => absurd hk (Nat.not_lt_zero k)⟩
      simpa [nthSlot] using Bool.eq_false_iff.mpr ha

theorem firstInactive_none (bag : HazardBag) (h : firstInactive bag = none) :
    ∀ s ∈ bag, s.active = true := by
  induction bag with
  | nil => intro s hs; simp at hs
  | cons s rest ih =>
    by_cases ha : s.active
    · rw [firstInactive, if_pos ha] at h
      cases hr : firstInactive rest with
      | none =>
        intro t ht
        rcases List.mem_cons.mp ht with rfl | ht'
        · exact ha
        · exact ih hr t ht'
      | some j' => simp [hr] at h
    · rw [firstInactive, if_neg ha] at h
      exact absurd h (by simp)

/-- The scan of `try_acquire_inactive` activates exactly the first inactive
slot, or fails when every slot is active. -/
theorem try_acquire_inactive_eq (bag : HazardBag) :
    try_acquire_inactive bag =
      (firstInactive bag).map
        (fun j => (updateSlot bag j (fun s => { s with active := true }), j)) := by
  induction bag with
  | nil => rfl
  | cons s rest ih =>
    by_cases ha : s.active
    · rw [try_acquire_inactive, firstInactive, if_pos ha, if_pos ha, ih]
      cases hr : firstInactive rest <;> simp [updateSlot]
    · rw [try_acquire_inactive, firstInactive, if_neg ha, if_neg ha]
      simp [updateSlot]

/-- Claim C5: `acquire_slot` returns the first inactive slot of the chain
with its liveness flag flipped to true; when every slot is active it pushes a
fresh slot (liveness true, value null) at the head; in every case the
returned slot's liveness flag is true. -/
theorem acquire_slot_spec :
    (∀ (bag : HazardBag) (j : Nat), firstInactive bag = some j →
      j < bag.length ∧ (nthSlot bag j).active = false ∧
      (∀ k, k < j → (nthSlot bag k).active = true) ∧
      acquire_slot bag =
        (updateSlot bag j (fun s => { s with active := true }), j)) ∧
    (∀ bag : HazardBag, firstInactive bag = none →
      (∀ s ∈ bag, s.active = true) ∧
      acquire_slot bag = (HazardSlot.new :: bag, 0)) ∧
    (∀ bag : HazardBag,
      (nthSlot (acquire_slot bag).1 (acquire_slot bag).2).active = true) := by
  refine ⟨?_, ?_, ?_⟩
  · intro bag j h
    obtain ⟨h1, h2, h3⟩ := firstInactive_some bag j h
    refine ⟨h1, h2, h3, ?_⟩
    rw [acquire_slot, try_acquire_inactive_eq, h]
    rfl
  · intro bag h
    refine ⟨firstInactive_none bag h, ?_⟩
    rw [acquire_slot, try_acquire_inactive_eq, h]
    rfl
  · intro bag
    cases h : firstInactive bag with
    | none =>
      rw [acquire_slot, try_acquire_inactive_eq, h]
      rfl
    | some j =>
      rw [acquire_slot, try_acquire_inactive_eq, h]
      obtain ⟨h1, _, _⟩ := firstInactive_some bag j h
      show (nthSlot (updateSlot bag j fun s => { s with active := true }) j).active = true
      rw [nthSlot_updateSlot_self bag j _ h1]

/-- Claim C5 witness: a chain whose head is active and whose second slot is
inactive; `acquire_slot` flips the second slot. -/
theorem acquire_slot_spec_witness :
    firstInactive [HazardSlot.mk true 3, HazardSlot.mk false 0] = some 1 ∧
    acquire_slot [HazardSlot.mk true 3, HazardSlot.mk false 0] =
      ([HazardSlot.mk true 3, HazardSlot.mk true 0], 1) := by
  refine ⟨by decide, ?_⟩
  have h :=
    (acquire_slot_spec.1 [HazardSlot.mk true 3, HazardSlot.mk false 0] 1 (by decide)).2.2.2
  rw [h]
  rfl

/-- Claim C4: `try_protect` is `set` followed by `validate`; on success the
slot publishes the validated pointer, and on mismatch the slot is cleared
before the mismatch (carrying the newly observed source value) is returned,
so the slot holds null after an error. -/
theorem try_protect_spec (bag : HazardBag) (i : Nat) (p srcNow : Ptr)
    (h : i < bag.length) :
    ((Shield.try_protect bag i p srcNow).2 = none →
      srcNow = p ∧ (nthSlot (Shield.try_protect bag i p srcNow).1 i).hazard = p) ∧
    (∀ v, (Shield.try_protect bag i p srcNow).2 = some v →
      v = srcNow ∧ srcNow ≠ p ∧
      (nthSlot (Shield.try_protect bag i p srcNow).1 i).hazard = 0) := by
  by_cases hv : srcNow = p
  · simp only [Shield.try_protect, Shield.validate, if_pos hv]
    refine ⟨fun _ => ⟨hv, ?_⟩, fun v hc => by simp at hc⟩
    rw [Shield.set, nthSlot_updateSlot_self bag i _ h]
  · simp only [Shield.try_protect, Shield.validate, if_neg hv]
    refine ⟨fun hc => by simp at hc, fun v hv' => ?_⟩
    refine ⟨(Option.some.inj hv').symm, hv, ?_⟩
    simp only [Shield.clear, Shield.set]
    have hlen : i < (updateSlot bag i fun s => { s with hazard := p }).length := by
      rw [updateSlot_length]; exact h
    rw [nthSlot_updateSlot_self _ i _ hlen]

/-- Claim C4 witness: protecting pointer 1 while the source holds 2 fails
and leaves the slot null. -/
theorem try_protect_spec_witness :
    (Shield.try_protect [HazardSlot.new] 0 1 2).2 = some 2 ∧
    (nthSlot (Shield.try_protect [HazardSlot.new] 0 1 2).1 0).hazard = 0 := by
  have h := (try_protect_spec [HazardSlot.new] 0 1 2 (by decide)).2 2 (by decide)
  exact ⟨by decide, h.2.2⟩

theorem protectAux_spec (i : Nat) (rest : List Ptr) :
    ∀ (bag : HazardBag) (ptr p : Ptr) (bag' : HazardBag),
      i < bag.length →
      Shield.protectAux bag i ptr rest = some (p, bag') →
      (nthSlot bag' i).hazard = p ∧ (p = ptr ∨ p ∈ rest) := by
  induction rest with
  | nil =>
    intro bag ptr p bag' hlen h
    simp [Shield.protectAux] at h
  | cons srcNow rest ih =>
    intro bag ptr p bag' hlen h
    rw [Shield.protectAux] at h
    by_cases hv : srcNow = ptr
    · simp only [Shield.try_protect, Shield.validate, if_pos hv] at h
      simp only [Option.some.injEq, Prod.mk.injEq] at h
      obtain ⟨rfl, rfl⟩ := h
      refine ⟨?_, Or.inl rfl⟩
      rw [Shield.set, nthSlot_updateSlot_self bag i _ hlen]
    · simp only [Shield.try_protect, Shield.validate, if_neg hv] at h
      have hlen' : i < (Shield.clear (Shield.set bag i ptr) i).length := by
        rw [Shield.clear, Shield.set, Shield.set, updateSlot_length,
          updateSlot_length]
        exact hlen
      obtain ⟨h1, h2⟩ := ih _ srcNow p bag' hlen' h
      refine ⟨h1, Or.inr ?_⟩
      rcases h2 with rfl | hm
      · exact List.mem_cons_self _ _
      · exact List.mem_cons_of_mem _ hm

/-- Claim C7: when `protect` returns, the returned pointer is one of the
values observed from the source — the one the successful validation load
saw — and the shield's slot is left publishing exactly that value; when the
source is never concurrently mutated (all loads observe the same value `v`),
`protect` terminates at once and returns `v`. -/
theorem protect_spec :
    (∀ (bag : HazardBag) (i : Nat) (loads : List Ptr) (p : Ptr)
        (bag' : HazardBag),
      i < bag.length →
      Shield.protect bag i loads = some (p, bag') →
      (nthSlot bag' i).hazard = p ∧ p ∈ loads) ∧
    (∀ (bag : HazardBag) (i : Nat) (v : Ptr) (n : Nat),
      Shield.protect bag i (List.replicate (n + 2) v) =
        some (v, Shield.set bag i v)) := by
  constructor
  · intro bag i loads p bag' hlen h
    cases loads with
    | nil => simp [Shield.protect] at h
    | cons v rest =>
      rw [Shield.protect] at h
      obtain ⟨h1, h2⟩ := protectAux_spec i rest bag v p bag' hlen h
      refine ⟨h1, ?_⟩
      rcases h2 with rfl | hm
      · exact List.mem_cons_self _ _
      · exact List.mem_cons_of_mem _ hm
  · intro bag i v n
    rw [List.replicate_succ, List.replicate_succ, Shield.protect,
      Shield.protectAux]
    simp [Shield.try_protect, Shield.validate]

/-- Claim C7 witness: a constant source holding 7 is protected on the first
try, and the slot publishes 7. -/
theorem protect_spec_witness :
    Shield.protect [HazardSlot.new] 0 [7, 7] = some (7, [HazardSlot.mk true 7]) ∧
    (nthSlot [HazardSlot.mk true 7] 0).hazard = 7 ∧ 7 ∈ [7, 7] := by
  have h := protect_spec.1 [HazardSlot.new] 0 [7, 7] 7 [HazardSlot.mk true 7]
    (by decide) (by decide)
  exact ⟨by decide, h⟩

theorem firstInactive_of_inactiveCount_pos (bag : HazardBag)
    (h : 0 < inactiveCount bag) : ∃ j, firstInactive bag = some j := by
  induction bag with
  | nil => simp [inactiveCount] at h
  | cons s rest ih =>
    by_cases ha : s.active
    · rw [inactiveCount, List.filter_cons] at h
      simp only [ha, Bool.not_true] at h
      obtain ⟨j, hj⟩ := ih h
      exact ⟨j + 1, by rw [firstInactive, if_pos ha, hj]; rfl⟩
    · exact ⟨0, by rw [firstInactive, if_neg ha]⟩

theorem try_acquire_inactive_counts (bag : HazardBag) :
    ∀ (bag' : HazardBag) (j : Nat),
      try_acquire_inactive bag = some (bag', j) →
      bag'.length = bag.length ∧ inactiveCount bag' + 1 = inactiveCount bag := by
  induction bag with
  | nil => intro bag' j h; simp [try_acquire_inactive] at h
  | cons s rest ih =>
    intro bag' j h
    by_cases ha : s.active
    · rw [try_acquire_inactive, if_pos ha] at h
      cases hr : try_acquire_inactive rest with
      | none => rw [hr] at h; exact Option.noConfusion h
      | some r =>
        rw [hr] at h
        have h2 : (s :: r.1, r.2 + 1) = (bag', j) := Option.some.inj h
        obtain ⟨rfl, rfl⟩ : s :: r.1 = bag' ∧ r.2 + 1 = j :=
          ⟨congrArg Prod.fst h2, congrArg Prod.snd h2⟩
        obtain ⟨hl, hc⟩ := ih r.1 r.2 hr
        constructor
        · simp [hl]
        · rw [inactiveCount, inactiveCount, List.filter_cons, List.filter_cons]
          simp only [ha, Bool.not_true]
          exact hc
    · rw [try_acquire_inactive, if_neg ha] at h
      simp only [Option.some.injEq] at h
      obtain ⟨rfl, rfl⟩ : { s with active := true } :: rest = bag' ∧ 0 = j := by
        constructor
        · exact congrArg Prod.fst h
        · exact congrArg Prod.snd h
      constructor
      · rfl
      · rw [inactiveCount, inactiveCount, List.filter_cons, List.filter_cons]
        simp [ha]

theorem acquireN_length (n : Nat) :
    ∀ bag : HazardBag, n ≤ inactiveCount bag →
      (acquireN bag n).length = bag.length := by
  induction n with
  | zero => intro bag _; rfl
  | succ n ih =>
    intro bag hn
    have hpos : 0 < inactiveCount bag := Nat.lt_of_lt_of_le (Nat.succ_pos n) hn
    obtain ⟨j, hj⟩ := firstInactive_of_inactiveCount_pos bag hpos
    have htai : try_acquire_inactive bag =
        some (updateSlot bag j (fun s => { s with active := true }), j) := by
      rw [try_acquire_inactive_eq, hj]
      rfl
    obtain ⟨hl, hc⟩ := try_acquire_inactive_counts bag _ j htai
    have hacq : acquire_slot bag =
        (updateSlot bag j (fun s => { s with active := true }), j) := by
      rw [acquire_slot, htai]
    rw [acquireN, hacq]
    have hn' : n ≤ inactiveCount (updateSlot bag j fun s => { s with active := true }) := by
      omega
    rw [ih _ hn', hl]

/-- Claim C9: with a chain of `k` slots all released, any sequence of at
most `k` simultaneous leases recycles existing slots and never grows the
chain; releasing a shield (`Drop`) also never changes the chain length. -/
theorem recycle_no_growth :
    (∀ (bag : HazardBag) (n : Nat),
      (∀ s ∈ bag, s.active = false) → n ≤ bag.length →
      (acquireN bag n).length = bag.length) ∧
    (∀ (bag : HazardBag) (i : Nat),
      (Shield.dropSlot bag i).length = bag.length) := by
  constructor
  · intro bag n hrel hn
    have hcount : inactiveCount bag = bag.length := by
      rw [inactiveCount, List.filter_length_eq_length.mpr]
      intro s hs
      simp [hrel s hs]
    exact acquireN_length n bag (hcount ▸ hn)
  · intro bag i
    rw [Shield.dropSlot, updateSlot_length]

/-- Claim C9 witness: leasing twice from a fully released two-slot chain
allocates nothing. -/
theorem recycle_no_growth_witness :
    (acquireN [HazardSlot.mk false 0, HazardSlot.mk false 0] 2).length =
      ([HazardSlot.mk false 0, HazardSlot.mk false 0] : HazardBag).length :=
  recycle_no_growth.1 [HazardSlot.mk false 0, HazardSlot.mk false 0] 2
    (by decide) (by decide)

/-- Claim C10: every registry operation preserves the inactive-slots-are-null
invariant — new slots start active and null, acquisition only activates a
slot, a shield's `set` touches an active (leased) slot, and shield
destruction nulls the hazard before deactivating — and under the invariant
`all_hazards` only reports values of active slots. -/
theorem inactive_slot_null_invariant :
    (HazardSlot.new.active = true ∧ HazardSlot.new.hazard = 0) ∧
    (∀ bag : HazardBag, Inv bag → Inv (acquire_slot bag).1) ∧
    (∀ (bag : HazardBag) (i : Nat), Inv bag → Inv (Shield.dropSlot bag i)) ∧
    (∀ (bag : HazardBag) (i : Nat) (p : Ptr), Inv bag →
      (nthSlot bag i).active = true → Inv (Shield.set bag i p)) ∧
    (∀ (bag : HazardBag) (p : Ptr), Inv bag → p ∈ all_hazards bag →
      ∃ s ∈ bag, s.active = true ∧ s.hazard = p) := by
  refine ⟨⟨rfl, rfl⟩, ?_, ?_, ?_, ?_⟩
  · intro bag hinv
    cases h : firstInactive bag with
    | none =>
      rw [acquire_slot, try_acquire_inactive_eq, h]
      intro s' hs' hact
      rcases List.mem_cons.mp hs' with rfl | hs''
      · exact absurd hact (by simp [HazardSlot.new])
      · exact hinv s' hs'' hact
    | some j =>
      rw [acquire_slot, try_acquire_inactive_eq, h]
      intro s' hs' hact
      rcases mem_updateSlot bag j _ s' hs' with hm | ⟨_, rfl⟩
      · exact hinv s' hm hact
      · exact absurd hact (by simp)
  · intro bag i hinv s' hs' _
    rcases mem_updateSlot bag i _ s' hs' with hm | ⟨_, rfl⟩
    · exact hinv s' hm (by assumption)
    · rfl
  · intro bag i p hinv hact s' hs' hact'
    rcases mem_updateSlot bag i _ s' hs' with hm | ⟨_, rfl⟩
    · exact hinv s' hm hact'
    · exact absurd hact' (by simp [hact])
  · intro bag p hinv hp
    obtain ⟨h0, s, hs, he⟩ := (mem_all_hazards bag p).mp hp
    refine ⟨s, hs, ?_, he⟩
    cases hact : s.active with
    | true => rfl
    | false => exact absurd (he ▸ hinv s hs hact) h0

/-- Claim C10 witness: the invariant holds of a concrete mixed chain and is
preserved by an acquisition. -/
theorem inactive_slot_null_invariant_witness :
    Inv (acquire_slot [HazardSlot.mk true 5, HazardSlot.mk false 0]).1 :=
  inactive_slot_null_invariant.2.1
    [HazardSlot.mk true 5, HazardSlot.mk false 0] (by decide)

theorem retire_below (bag : HazardBag) (rs : RetiredSet) (e : Retired)
    (h : rs.inner.length + 1 < RetiredSet.THRESHOLD) :
    rs.retire bag e = (⟨rs.inner ++ [e]⟩, []) := by
  rw [RetiredSet.retire]
  have hlen : ¬RetiredSet.THRESHOLD ≤ (rs.inner ++ [e]).length := by
    rw [List.length_append, List.length_singleton]
    omega
  rw [if_neg hlen]

theorem collect_all_free (bag : HazardBag) (rs : RetiredSet)
    (h : ∀ e ∈ rs.inner, e.1 ∉ all_hazards bag) :
    rs.collect bag = (⟨[]⟩, rs.inner) := by
  rw [RetiredSet.collect, retainSplit_eq]
  have h1 : rs.inner.filter (fun e => decide (e.1 ∈ all_hazards bag)) = [] := by
    rw [List.filter_eq_nil_iff]
    intro e he
    simp [h e he]
  have h2 : rs.inner.filter (fun e => decide (e.1 ∉ all_hazards bag)) = rs.inner := by
    rw [List.filter_eq_self]
    intro e he
    simp [h e he]
  rw [h1, h2]

theorem retireAll_drains (bag : HazardBag) :
    ∀ (es : List Retired) (rs : RetiredSet),
      (∀ e ∈ rs.inner ++ es, e.1 ∉ all_hazards bag) →
      rs.inner.length + es.length = RetiredSet.THRESHOLD →
      es ≠ [] →
      rs.retireAll bag es = (⟨[]⟩, rs.inner ++ es) := by
  intro es
  induction es with
  | nil => intro rs _ _ hne; exact absurd rfl hne
  | cons e rest ih =>
    intro rs hfree hlen _
    rw [RetiredSet.retireAll]
    cases rest with
    | nil =>
      have hthresh : RetiredSet.THRESHOLD ≤ (rs.inner ++ [e]).length := by
        rw [List.length_append, List.length_singleton]
        simp only [List.length_cons, List.length_nil] at hlen
        omega
      rw [RetiredSet.retire, if_pos hthresh]
      have hco : RetiredSet.collect bag ⟨rs.inner ++ [e]⟩ =
          (⟨[]⟩, rs.inner ++ [e]) := by
        apply collect_all_free
        intro x hx
        exact hfree x (by simpa using hx)
      rw [hco]
      simp [RetiredSet.retireAll]
    | cons e2 rest2 =>
      have hbelow : rs.inner.length + 1 < RetiredSet.THRESHOLD := by
        simp only [List.length_cons] at hlen
        omega
      rw [retire_below bag rs e hbelow]
      have hstep := ih ⟨rs.inner ++ [e]⟩
        (by
          intro x hx
          apply hfree x
          simp only [List.append_assoc, List.singleton_append] at hx
          exact hx)
        (by
          show (rs.inner ++ [e]).length + (e2 :: rest2).length =
            RetiredSet.THRESHOLD
          rw [List.length_append, List.length_singleton]
          simp only [List.length_cons] at hlen ⊢
          omega)
        (by simp)
      rw [hstep]
      simp [List.append_assoc]

/-- Claim C3: `retire` appends the (pointer, destructor) pair to the buffer,
running no destructor while the buffer stays below the threshold 64, and
triggers `collect` synchronously when the buffer reaches 64; retiring
exactly 64 entries into a fresh queue while no shield protects any of them
leaves the buffer empty with all 64 entries destructed by the time the
threshold-triggering retire returns. -/
theorem retire_threshold (bag : HazardBag) :
    (∀ (rs : RetiredSet) (e : Retired),
      rs.inner.length + 1 < 64 → rs.retire bag e = (⟨rs.inner ++ [e]⟩, [])) ∧
    (∀ (rs : RetiredSet) (e : Retired),
      rs.inner.length + 1 = 64 →
      rs.retire bag e = RetiredSet.collect bag ⟨rs.inner ++ [e]⟩) ∧
    (∀ es : List Retired,
      es.length = 64 → (∀ e ∈ es, e.1 ∉ all_hazards bag) →
      RetiredSet.new.retireAll bag es = (⟨[]⟩, es)) := by
  refine ⟨?_, ?_, ?_⟩
  · intro rs e h
    exact retire_below bag rs e h
  · intro rs e h
    rw [RetiredSet.retire, if_pos]
    rw [List.length_append, List.length_singleton]
    have ht : RetiredSet.THRESHOLD = 64 := rfl
    omega
  · intro es hlen hfree
    have h := retireAll_drains bag es RetiredSet.new
      (by simpa [RetiredSet.new] using hfree)
      (by simpa [RetiredSet.new] using hlen)
      (by intro hc; rw [hc] at hlen; simp at hlen)
    simpa [RetiredSet.new] using h

/-- Claim C3 witness: retiring the 64 pointers 1..64 into a fresh queue
against an empty registry frees all of them. -/
theorem retire_threshold_witness :
    RetiredSet.new.retireAll []
        ((List.range 64).map (fun k => ((k + 1 : Nat), (0 : Nat)))) =
      (⟨[]⟩, (List.range 64).map (fun k => ((k + 1 : Nat), (0 : Nat)))) :=
  (retire_threshold []).2.2
    ((List.range 64).map (fun k => ((k + 1 : Nat), (0 : Nat))))
    (by simp) (by decide)

theorem collect_kept_sublist (bag : HazardBag) (rs : RetiredSet) :
    ∀ e ∈ (rs.collect bag).1.inner, e ∈ rs.inner := by
  intro e he
  rw [RetiredSet.collect, retainSplit_eq] at he
  exact (List.mem_filter.mp he).1

theorem collect_kept_hazarded (bag : HazardBag) (rs : RetiredSet) :
    ∀ e ∈ (rs.collect bag).1.inner, e.1 ∈ all_hazards bag := by
  intro e he
  rw [RetiredSet.collect, retainSplit_eq] at he
  simpa using (List.mem_filter.mp he).2

theorem collect_split_mem (bag : HazardBag) (rs : RetiredSet) :
    ∀ e ∈ rs.inner, e ∈ (rs.collect bag).1.inner ∨ e ∈ (rs.collect bag).2 := by
  intro e he
  rw [RetiredSet.collect, retainSplit_eq]
  by_cases hh : e.1 ∈ all_hazards bag
  · exact Or.inl (List.mem_filter.mpr ⟨he, by simpa using hh⟩)
  · exact Or.inr (List.mem_filter.mpr ⟨he, by simpa using hh⟩)

theorem dropDrain_empty (bags : List HazardBag) (rs : RetiredSet)
    (h : rs.inner = []) : RetiredSet.dropDrain bags rs = some [] := by
  cases bags <;> rw [RetiredSet.dropDrain, if_pos h]

theorem dropDrain_mem (bags : List HazardBag) :
    ∀ (rs : RetiredSet) (out : List Retired),
      RetiredSet.dropDrain bags rs = some out →
      ∀ e ∈ rs.inner, e ∈ out := by
  induction bags with
  | nil =>
    intro rs out h e he
    have hin : rs.inner ≠ [] := by
      intro hc; rw [hc] at he; simp at he
    rw [RetiredSet.dropDrain, if_neg hin] at h
    exact Option.noConfusion h
  | cons bag rest ih =>
    intro rs out h e he
    have hin : rs.inner ≠ [] := by
      intro hc; rw [hc] at he; simp at he
    rw [RetiredSet.dropDrain, if_neg hin] at h
    cases hd : RetiredSet.dropDrain rest (rs.collect bag).1 with
    | none => rw [hd] at h; exact Option.noConfusion h
    | some out' =>
      rw [hd] at h
      have hout : (rs.collect bag).2 ++ out' = out := Option.some.inj h
      rcases collect_split_mem bag rs e he with hk | hf
      · have := ih (rs.collect bag).1 out' hd e hk
        rw [← hout]
        exact List.mem_append_right _ this
      · rw [← hout]
        exact List.mem_append_left _ hf

theorem dropDrain_terminating (bags : List HazardBag) :
    ∀ rs : RetiredSet,
      (∀ e ∈ rs.inner, ∃ bagi ∈ bags, e.1 ∉ all_hazards bagi) →
      ∃ out, RetiredSet.dropDrain bags rs = some out := by
  induction bags with
  | nil =>
    intro rs hfree
    have hin : rs.inner = [] := by
      cases hin : rs.inner with
      | nil => rfl
      | cons x l =>
        obtain ⟨bagi, hbi, _⟩ := hfree x (by rw [hin]; exact List.mem_cons_self _ _)
        simp at hbi
    exact ⟨[], dropDrain_empty _ rs hin⟩
  | cons bag rest ih =>
    intro rs hfree
    by_cases hin : rs.inner = []
    · exact ⟨[], dropDrain_empty _ rs hin⟩
    · rw [RetiredSet.dropDrain, if_neg hin]
      have hfree' : ∀ e ∈ (rs.collect bag).1.inner,
          ∃ bagi ∈ rest, e.1 ∉ all_hazards bagi := by
        intro e he
        obtain ⟨bagi, hbi, hnh⟩ := hfree e (collect_kept_sublist bag rs e he)
        rcases List.mem_cons.mp hbi with rfl | hbi'
        · exact absurd (collect_kept_hazarded bagi rs e he) hnh
        · exact ⟨bagi, hbi', hnh⟩
      obtain ⟨out, hout⟩ := ih (rs.collect bag).1 hfree'
      exact ⟨(rs.collect bag).2 ++ out, by rw [hout]; rfl⟩

theorem dropDrain_blocked (bags : List HazardBag) :
    ∀ (rs : RetiredSet) (p : Ptr) (d : Del), (p, d) ∈ rs.inner →
      (∀ bagi ∈ bags, p ∈ all_hazards bagi) →
      RetiredSet.dropDrain bags rs = none := by
  induction bags with
  | nil =>
    intro rs p d hmem _
    have hin : rs.inner ≠ [] := by
      intro hc; rw [hc] at hmem; simp at hmem
    rw [RetiredSet.dropDrain, if_neg hin]
  | cons bag rest ih =>
    intro rs p d hmem hhaz
    have hin : rs.inner ≠ [] := by
      intro hc; rw [hc] at hmem; simp at hmem
    rw [RetiredSet.dropDrain, if_neg hin]
    have hkept : (p, d) ∈ (rs.collect bag).1.inner := by
      rw [RetiredSet.collect, retainSplit_eq]
      refine List.mem_filter.mpr ⟨hmem, ?_⟩
      simpa using hhaz bag (List.mem_cons_self _ _)
    have hrec := ih (rs.collect bag).1 p d hkept
      (fun bagi hbi => hhaz bagi (List.mem_cons_of_mem _ hbi))
    rw [hrec]
    rfl

/-- Claim C8: the teardown drain of a Retirement Queue loops `collect` until
the buffer is empty.  It terminates — with every buffered entry destructed —
as soon as some iteration observes a hazard snapshot covering none of the
buffered pointers, and it never returns while some buffered pointer is
present in every observed snapshot. -/
theorem drop_drain_spec :
    (∀ (bags : List HazardBag) (rs : RetiredSet),
      (∀ e ∈ rs.inner, ∃ bagi ∈ bags, e.1 ∉ all_hazards bagi) →
      ∃ out, RetiredSet.dropDrain bags rs = some out ∧
        ∀ e ∈ rs.inner, e ∈ out) ∧
    (∀ (bags : List HazardBag) (rs : RetiredSet) (p : Ptr) (d : Del),
      (p, d) ∈ rs.inner → (∀ bagi ∈ bags, p ∈ all_hazards bagi) →
      RetiredSet.dropDrain bags rs = none) := by
  constructor
  · intro bags rs hfree
    obtain ⟨out, hout⟩ := dropDrain_terminating bags rs hfree
    exact ⟨out, hout, dropDrain_mem bags rs out hout⟩
  · intro bags rs p d hmem hhaz
    exact dropDrain_blocked bags rs p d hmem hhaz

/-- Claim C8 witness: a queue with one unprotected entry drains in one
round against an empty registry, and a queue whose entry stays hazarded in
every observed snapshot never finishes. -/
theorem drop_drain_spec_witness :
    (∃ out, RetiredSet.dropDrain [[]] ⟨[(1, 0)]⟩ = some out ∧
      ∀ e ∈ ([(1, 0)] : List Retired), e ∈ out) ∧
    RetiredSet.dropDrain [[HazardSlot.mk true 1]] ⟨[(1, 0)]⟩ = none := by
  constructor
  · exact drop_drain_spec.1 [[]] ⟨[(1, 0)]⟩ (by decide)
  · exact drop_drain_spec.2 [[HazardSlot.mk true 1]] ⟨[(1, 0)]⟩ 1 0
      (by decide) (by decide)

/-- Sequential-atomicity core of the hazard-pointer safety argument: a
`collect` run against a chain in which some slot currently publishes a
non-null pointer never passes that pointer to a destructor in that run,
because the pointer is in the snapshot and the corresponding entries are
retained.  (The full claim about arbitrary concurrent executions also
depends on cross-thread ordering and on the caller contract relating the
source cell to retirement, which live outside this sequential model.) -/
theorem collect_spares_published (bag : HazardBag) (rs : RetiredSet)
    (s : HazardSlot) (hs : s ∈ bag) (h0 : s.hazard ≠ 0) :
    ∀ e ∈ (rs.collect bag).2, e.1 ≠ s.hazard := by
  intro e he hc
  rw [RetiredSet.collect, retainSplit_eq] at he
  have hnot := (List.mem_filter.mp he).2
  have hin : s.hazard ∈ all_hazards bag :=
    (mem_all_hazards bag s.hazard).mpr ⟨h0, s, hs, rfl⟩
  rw [hc] at hnot
  simp [hin] at hnot

end HazardPtr
